import Mathlib

/-!
Verification development for the conway.ops repository administration layer.

This file gives a shallow embedding, over `List Char` strings, of the
string-parsing and workflow logic of the repo-administration components:

* `FileSystem_RepoInspector` (src/conway_ops/repo_admin/filesystem_repo_inspector.py)
* `GitHub_RepoInspector` (src/conway_ops/repo_admin/github_repo_inspector.py)
* `RepoInspectorFactory` (src/conway_ops/repo_admin/repo_inspector_factory.py)
* `BranchLifecycleManager` (src/conway_ops/repo_admin/branch_lifecycle_manager.py)
* `RepoAdministration.is_branch_merged_to_destination` (src/conway_ops/repo_admin/repo_administration.py)

The effectful boundary (subprocess output of the git client, JSON responses
of the GitHub API, path existence on the file system) is passed in as data:
raw output strings, a `fetch` function standing for the commit DAG, and a
`pathExists` predicate.  Everything downstream of that boundary is translated
from the Python source, statement by statement.
-/

/-- Strings are modelled as lists of characters; Python string operations
    are given explicit executable models below. -/
abbrev Str := List Char

/-- Coercion from Lean string literals to the `Str` model. -/
def strOf (s : String) : Str := s.data

/-- Characters stripped by the Python no-argument `str.strip()` call
    (ASCII whitespace). -/
def isPyWs (c : Char) : Bool :=
  c == ' ' || c == '\t' || c == '\n' || c == '\r' || c == Char.ofNat 11 || c == Char.ofNat 12

/-- Python `s.strip(...)` for a character predicate: drop matching characters
    from both ends of the string. -/
def pyStrip (p : Char → Bool) (s : Str) : Str :=
  ((s.dropWhile p).reverse.dropWhile p).reverse

/-- Python `s.strip()` (strip ASCII whitespace from both ends). -/
def pyStripWs (s : Str) : Str := pyStrip isPyWs s

/-- Python `s.strip(chars)`: strips every character belonging to `chars`
    (as a character set) from both ends. -/
def pyStripChars (cs : Str) (s : Str) : Str := pyStrip (fun c => cs.contains c) s

/-- Python `s.split(sep)` for a one-character separator `sep`; keeps empty
    fields, exactly like Python (`"".split` gives one empty field). -/
def pySplit (sep : Char) : Str → List Str
  | [] => [[]]
  | c :: rest =>
    if c = sep then [] :: pySplit sep rest
    else
      match pySplit sep rest with
      | [] => [[c]]
      | y :: ys => (c :: y) :: ys

/-- Python `sep.join(parts)`. -/
def pyJoin (sep : Str) : List Str → Str
  | [] => []
  | [x] => x
  | x :: y :: ys => x ++ sep ++ pyJoin sep (y :: ys)

/-- Python substring test `sub in s`. -/
def pyContains (sub : Str) : Str → Bool
  | [] => sub.isEmpty
  | c :: rest => sub.isPrefixOf (c :: rest) || pyContains sub rest

/-- Python `s.split(sep)` for a multi-character separator (used by
    `committed_files`, which splits the whole log on the marker `commit `).
    The guard on an empty separator keeps the function total; the source
    never splits on an empty separator (Python would raise there). -/
def pySplitStr (sep : Str) : Str → List Str
  | [] => [[]]
  | c :: rest =>
    if hne : sep ≠ [] ∧ sep.isPrefixOf (c :: rest) then
      [] :: pySplitStr sep ((c :: rest).drop sep.length)
    else
      match pySplitStr sep rest with
      | [] => [[c]]
      | y :: ys => (c :: y) :: ys
termination_by s => s.length
decreasing_by
  · simp only [List.length_drop, List.length_cons]
    have hsep : 1 ≤ sep.length := by
      cases hs : sep with
      | nil => exact absurd hs hne.1
      | cons a l => simp
    omega
  · simp

/-- Newline-split of raw git output with empty lines filtered out; this is
    the comprehension `[x for x in raw.split("\n") if len(x) > 0]` used by
    `modified_files`, `deleted_files` and `untracked_files` of
    `FileSystem_RepoInspector`. -/
def splitNonEmptyLines (raw : Str) : List Str :=
  (pySplit '\n' raw).filter (fun x => x.length > 0)

/-- FileSystem_RepoInspector.deleted_files: newline-split of the output of
    `git ls-files -d`, empty lines dropped. -/
def fs_deleted_files (rawD : Str) : List Str := splitNonEmptyLines rawD

/-- FileSystem_RepoInspector.modified_files: newline-split of the output of
    `git ls-files -m`, empty lines dropped, minus every path reported by
    `deleted_files` (`[f for f in files_l if not f in deleted_files_l]`).
    `rawM` is the raw `git ls-files -m` output, `rawD` the raw
    `git ls-files -d` output. -/
def fs_modified_files (rawM rawD : Str) : List Str :=
  (splitNonEmptyLines rawM).filter (fun f => !((fs_deleted_files rawD).contains f))

/-- The test `"->" in b` applied per line by FileSystem_RepoInspector.branches. -/
def branchLineHasArrow (b : Str) : Bool := pyContains (strOf "->") b

/-- The per-line normalisation `b.strip("*").strip()` shared by
    FileSystem_RepoInspector.branches and RepoAdministration.branches. -/
def stripBranchLine (b : Str) : Str := pyStripWs (pyStripChars (strOf "*") b)

/-- FileSystem_RepoInspector.branches: the comprehension
    `[b.strip("*").strip() for b in raw.split("\n") if not "->" in b]`. -/
def fs_branches (raw : Str) : List Str :=
  ((pySplit '\n' raw).filter (fun b => !branchLineHasArrow b)).map stripBranchLine

/-- Decimal digit characters, used to model `strftime` rendering. -/
def digCh : Nat → Char
  | 0 => '0' | 1 => '1' | 2 => '2' | 3 => '3' | 4 => '4'
  | 5 => '5' | 6 => '6' | 7 => '7' | 8 => '8' | _ => '9'

/-- Numeric value of a decimal digit character, used to model `strptime`
    and `dateutil` parsing. -/
def digVal (c : Char) : Option Nat :=
  if c = '0' then some 0 else if c = '1' then some 1 else if c = '2' then some 2
  else if c = '3' then some 3 else if c = '4' then some 4 else if c = '5' then some 5
  else if c = '6' then some 6 else if c = '7' then some 7 else if c = '8' then some 8
  else if c = '9' then some 9 else none

/-- Two-digit zero-padded rendering (strftime fields such as `%m`, `%d`). -/
def fmt2 (n : Nat) : Str := [digCh (n / 10 % 10), digCh (n % 10)]

/-- Four-digit zero-padded rendering (strftime field `%Y`). -/
def fmt4 (n : Nat) : Str :=
  [digCh (n / 1000 % 10), digCh (n / 100 % 10), digCh (n / 10 % 10), digCh (n % 10)]

/-- Read exactly two decimal digits from the front of the input. -/
def parse2 : Str → Option (Nat × Str)
  | c1 :: c2 :: rest =>
    match digVal c1, digVal c2 with
    | some d1, some d2 => some (10 * d1 + d2, rest)
    | _, _ => none
  | _ => none

/-- Read exactly four decimal digits from the front of the input. -/
def parse4 : Str → Option (Nat × Str)
  | c1 :: c2 :: c3 :: c4 :: rest =>
    match digVal c1, digVal c2, digVal c3, digVal c4 with
    | some d1, some d2, some d3, some d4 => some (1000 * d1 + 100 * d2 + 10 * d3 + d4, rest)
    | _, _, _, _ => none
  | _ => none

/-- Consume one expected literal character. -/
def expectCh (c : Char) : Str → Option Str
  | x :: rest => if x = c then some rest else none
  | [] => none

/-- A parsed (timezone-aware) datetime, as produced by Python
    `datetime.strptime` / `dateutil.parser.parse`.  `tzMinutes` is the UTC
    offset in minutes. -/
structure PyDateTime where
  year : Nat
  month : Nat
  day : Nat
  hour : Nat
  minute : Nat
  second : Nat
  tzMinutes : Int
deriving DecidableEq

/-- The canonical compact timestamp `parsed_dt.strftime("%y%m%d.%H%M%S")`
    (filesystem backend, line 128) and
    `commit_datetime.strftime("%y%m%d.%H%M%S")` (GitHub backend, line 151).
    strftime formats the stored local fields; the timezone offset does not
    appear in the output. -/
def compactTimestamp (dt : PyDateTime) : Str :=
  fmt2 (dt.year % 100) ++ fmt2 dt.month ++ fmt2 dt.day ++
  '.' :: (fmt2 dt.hour ++ fmt2 dt.minute ++ fmt2 dt.second)

/-- Consume one expected literal separator character followed by a two-digit
    field — the shape of the `-%m`, `-%d`, ` %H`, `:%M`, `:%S` steps of the
    strptime formats below. -/
def parseSep2 (c : Char) (s : Str) : Option (Nat × Str) :=
  (expectCh c s).bind parse2

/-- The `%z` directive of strptime preceded by its space separator: a sign
    followed by a four-digit `HHMM` offset, which must exhaust the input
    (strptime fails unless the whole string matches the format). -/
def parseTz (s : Str) : Option Int :=
  match s with
  | ' ' :: sign :: rest =>
    if sign = '+' ∨ sign = '-' then
      (parse2 rest).bind fun q1 =>
      (parse2 q1.2).bind fun q2 =>
      if q2.2 = [] then
        some ((if sign = '+' then 1 else -1) * (60 * (q1.1 : Int) + (q2.1 : Int)))
      else none
    else none
  | _ => none

/-- Model of `datetime.strptime(s, "%Y-%m-%d %H:%M:%S %z")` used by
    FileSystem_RepoInspector.last_commit on the `%ai` log field
    (for example `2023-06-14 20:32:57 -0700`): the format directives
    `%Y`, `-%m`, `-%d`, ` %H`, `:%M`, `:%S`, ` %z` in sequence.  strptime
    fails (raises) unless the whole input matches the format; failure is
    `none` here. -/
def parseGitDate (s : Str) : Option PyDateTime :=
  (parse4 s).bind fun p0 =>
  (parseSep2 '-' p0.2).bind fun p1 =>
  (parseSep2 '-' p1.2).bind fun p2 =>
  (parseSep2 ' ' p2.2).bind fun p3 =>
  (parseSep2 ':' p3.2).bind fun p4 =>
  (parseSep2 ':' p4.2).bind fun p5 =>
  (parseTz p5.2).map fun tz =>
  ⟨p0.1, p1.1, p2.1, p3.1, p4.1, p5.1, tz⟩

/-- The UTC marker terminating the ISO date fields the GitHub API produces
    (`...T20:32:57Z`). -/
def parseIsoTail (s : Str) : Option Int :=
  match s with
  | ['Z'] => some 0
  | _ => none

/-- Model of `dateutil.parser.parse` applied to the ISO-8601 date field
    returned by the GitHub API (the `commit.author.date` field of the response, for
    example `2023-06-14T20:32:57Z`), which is the only shape the API
    produces for that field. -/
def parseIsoDate (s : Str) : Option PyDateTime :=
  (parse4 s).bind fun p0 =>
  (parseSep2 '-' p0.2).bind fun p1 =>
  (parseSep2 '-' p1.2).bind fun p2 =>
  (parseSep2 'T' p2.2).bind fun p3 =>
  (parseSep2 ':' p3.2).bind fun p4 =>
  (parseSep2 ':' p4.2).bind fun p5 =>
  (parseIsoTail p5.2).map fun tz =>
  ⟨p0.1, p1.1, p2.1, p3.1, p4.1, p5.1, tz⟩

/-- The timestamp normalisation performed by
    FileSystem_RepoInspector.last_commit, lines 127-128: parse the native
    `YYYY-MM-DD HH:MM:SS +zzzz` log field, then format it compactly. -/
def fs_normalize_ts (s : Str) : Option Str := (parseGitDate s).map compactTimestamp

/-- The timestamp normalisation performed by GitHub_RepoInspector.last_commit,
    lines 147-151: parse the ISO date field of the API response, then format
    it compactly. -/
def gh_normalize_ts (s : Str) : Option Str := (parseIsoDate s).map compactTimestamp

/-- Rendering of the timezone part of the git `%ai` field (`+zzzz`/`-zzzz`). -/
def renderTz (tz : Int) : Str :=
  (if 0 ≤ tz then '+' else '-') :: (fmt2 (tz.natAbs / 60) ++ fmt2 (tz.natAbs % 60))

/-- The native textual form of the git log `%ai` field for a given datetime:
    `YYYY-MM-DD HH:MM:SS +zzzz`. -/
def renderGitDate (dt : PyDateTime) : Str :=
  fmt4 dt.year ++ '-' :: fmt2 dt.month ++ '-' :: fmt2 dt.day ++
  ' ' :: fmt2 dt.hour ++ ':' :: fmt2 dt.minute ++ ':' :: fmt2 dt.second ++
  ' ' :: renderTz dt.tzMinutes

/-- The native textual form of the GitHub API date field for a given UTC
    datetime: `YYYY-MM-DDTHH:MM:SSZ`. -/
def renderIsoDate (dt : PyDateTime) : Str :=
  fmt4 dt.year ++ '-' :: fmt2 dt.month ++ '-' :: fmt2 dt.day ++
  'T' :: fmt2 dt.hour ++ ':' :: fmt2 dt.minute ++ ':' :: fmt2 dt.second ++ ['Z']

/-- The `CommitInfo` record of repo_inspector.py. -/
structure CommitInfo where
  commit_hash : Str
  commit_msg : Str
  commit_ts : Str
deriving DecidableEq

/-- FileSystem_RepoInspector.last_commit, lines 105-134: the raw one-line
    output of `git log -1 --pretty=format:"%H|%ai|%s"` is split on `|`;
    field 0 is the hash, field 1 is parsed and reformatted as the compact
    timestamp, and all remaining fields are rejoined with `|` to rebuild the
    message (`"|".join(tokens[2:])`).  Accessing a missing token, or a
    strptime failure, raises in Python and is `none` here. -/
def fs_last_commit (raw : Str) : Option CommitInfo :=
  match pySplit '|' raw with
  | t0 :: t1 :: rest =>
    match fs_normalize_ts t1 with
    | some ts => some ⟨t0, pyJoin (strOf "|") rest, ts⟩
    | none => none
  | _ => none

/-- GitHub_RepoInspector.last_commit, lines 140-157, applied to the fields
    of the API response for `/commits/master`: the hash is the `sha` field,
    the message is the `commit.message` field, and the timestamp is the
    parsed and compactly reformatted ISO date field. -/
def gh_last_commit (sha dateStr message : Str) : Option CommitInfo :=
  match gh_normalize_ts dateStr with
  | some ts => some ⟨sha, message, ts⟩
  | none => none

/-- The two concrete inspector classes RepoInspectorFactory can build. -/
inductive InspectorKind where
  | filesystem
  | github
deriving DecidableEq

/-- RepoInspectorFactory.GIT_HUB_URL. -/
def GIT_HUB_URL : Str := strOf "https://github.com/"

/-- RepoInspectorFactory.findInspector, lines 19-37: if
    `parent_url + "/" + repo_name` exists as a local path, build a
    FileSystem_RepoInspector; otherwise, if `parent_url` starts with the
    GitHub base URL, build a GitHub_RepoInspector; otherwise raise.  The
    file-system existence test `Path(full_path).exists()` is passed in as
    the predicate `pathExists`. -/
def findInspector (pathExists : Str → Bool) (parent_url repo_name : Str) :
    Except Str InspectorKind :=
  let full_path := parent_url ++ '/' :: repo_name
  if pathExists full_path then Except.ok InspectorKind.filesystem
  else if GIT_HUB_URL.isPrefixOf parent_url then Except.ok InspectorKind.github
  else Except.error (strOf "No repo inspector is available for " ++ full_path)

/-- The `CommittedFileInfo` record of repo_inspector.py.  The filesystem
    parser can leave `commit_date`, `summary` and `commit_author` at Python
    `None`, hence the `Option`s; `commit_nb` is an `Int` because the GitHub
    backend first stores the placeholder `-99` before renumbering. -/
structure CommittedFileInfo where
  commit_nb : Int
  commit_date : Option Str
  summary : Option Str
  commit_file_nb : Nat
  commit_file : Str
  commit_hash : Str
  commit_author : Option Str
deriving DecidableEq

/-- The ordinal assignment shared by both backends: element number
    `commit_idx` of a newest-first sequence of `N` commits receives ordinal
    `N - 1 - commit_idx`.  This is `commit_nb = len(commits) - 1 - commit_idx`
    of filesystem_repo_inspector.py line 175, and equally the decreasing
    counter `commit_nb = len(sorted_keys) - 1`, `commit_nb -= 1` of
    github_repo_inspector.py lines 192-199. -/
def descOrdinals (commits : List α) : List (α × Nat) :=
  commits.enum.map (fun p => (p.2, commits.length - 1 - p.1))

/-- The first inner loop (`_advance_to_summary`) of
    FileSystem_RepoInspector.committed_files, lines 230-245: walk the lines
    of one commit block, harvesting the `Author:` and `Date:` header fields,
    until the line after the cursor starts with a space (the summary), the
    cursor advancing past each consumed header line.  The loop is driven by
    the bounds test `line_idx + 1 < MAX_LINES`; the fuel argument is an
    upper bound on iterations (the cursor strictly increases, so
    `lines.length` iterations always exhaust the loop) that makes the
    recursion structural. -/
def advanceToSummary (lines : List Str) :
    Nat → Nat → Option Str → Option Str → Nat × Option Str × Option Str
  | 0, lineIdx, author, date => (lineIdx, author, date)
  | fuel + 1, lineIdx, author, date =>
    if h : lineIdx + 1 < lines.length then
      let next := lines.get ⟨lineIdx + 1, h⟩
      if (strOf "Author:").isPrefixOf next then
        advanceToSummary lines fuel (lineIdx + 1)
          (some (pyStripWs (pyStripChars (strOf "Author:") next))) date
      else if (strOf "Date:").isPrefixOf next then
        advanceToSummary lines fuel (lineIdx + 1) author
          (some (pyStripWs (pyStripChars (strOf "Date:") next)))
      else if (strOf " ").isPrefixOf next then
        (lineIdx, author, date)
      else
        advanceToSummary lines fuel (lineIdx + 1) author date
    else (lineIdx, author, date)

/-- The second inner loop (`_advance_to_committed_files`) of
    FileSystem_RepoInspector.committed_files, lines 247-263: skip empty
    lines, fold space-prefixed lines into the summary (stripped and joined
    with `; `), and stop at the first non-empty line with no leading space.
    The fuel argument plays the same role as in `advanceToSummary`. -/
def advanceToCommittedFiles (lines : List Str) :
    Nat → Nat → Option Str → Nat × Option Str
  | 0, lineIdx, summary => (lineIdx, summary)
  | fuel + 1, lineIdx, summary =>
    if h : lineIdx + 1 < lines.length then
      let next := lines.get ⟨lineIdx + 1, h⟩
      if next.length = 0 then
        advanceToCommittedFiles lines fuel (lineIdx + 1) summary
      else if (strOf " ").isPrefixOf next then
        let msg := pyStripWs next
        advanceToCommittedFiles lines fuel (lineIdx + 1)
          (some (match summary with
                 | none => msg
                 | some s => s ++ strOf "; " ++ msg))
      else (lineIdx, summary)
    else (lineIdx, summary)

/-- The body of the per-commit loop of
    FileSystem_RepoInspector.committed_files, lines 170-296, applied to one
    block of the `git log --name-only` output (the text between two
    `commit ` markers): split the block into lines, take the hash from line
    0, run the two phase loops, then emit one `CommittedFileInfo` per
    non-empty remaining line (numbered by raw offset from `OFFSET`), or a
    single entry with an empty file path when the file loop had no lines at
    all (`OFFSET >= MAX_LINES`). -/
def fs_parse_commit_block (commit_nb : Nat) (commit : Str) : List CommittedFileInfo :=
  let lines := pySplit '\n' commit
  let hash := lines.headD []
  let phase1 := advanceToSummary lines lines.length 0 none none
  let phase2 := advanceToCommittedFiles lines lines.length phase1.1 none
  let OFFSET := phase2.1 + 1
  let fileEntries :=
    (List.range' OFFSET (lines.length - OFFSET)).filterMap (fun idx =>
      let file := lines.getD idx []
      if file.length = 0 then none
      else some { commit_nb := (commit_nb : Int)
                  commit_date := phase1.2.2
                  summary := phase2.2
                  commit_file_nb := idx - OFFSET
                  commit_file := file
                  commit_hash := hash
                  commit_author := phase1.2.1 })
  fileEntries ++
    (if OFFSET ≥ lines.length then
      [{ commit_nb := (commit_nb : Int)
         commit_date := phase1.2.2
         summary := phase2.2
         commit_file_nb := 0
         commit_file := []
         commit_hash := hash
         commit_author := phase1.2.1 }]
     else [])

/-- FileSystem_RepoInspector.committed_files, lines 158-299: split the raw
    `git log --name-only` output on the `commit ` marker, drop empty
    blocks, assign each block (listed newest first) the ordinal
    `len(commits) - 1 - commit_idx`, and concatenate the per-block entries. -/
def fs_committed_files (log : Str) : List CommittedFileInfo :=
  let commits := (pySplitStr (strOf "commit ") log).filter (fun c => c.length > 0)
  (descOrdinals commits).flatMap (fun p => fs_parse_commit_block p.2 p.1)

/-- The JSON fields of one commit as consumed by
    GitHub_RepoInspector._committed_files_impl: the `sha`, `commit.author.date`,
    `commit.author.name` and `commit.message` fields, the filenames under
    the `files` field, and the parent URLs under the `parents` field. -/
structure GhCommitData where
  sha : Str
  date : Str
  authorName : Str
  message : Str
  files : List Str
  parents : List Str
deriving DecidableEq

/-- Keys of the accumulator dictionary of `_committed_files_impl`: pairs
    `(commit_hash, commit_date)`. -/
abbrev GhKey := Str × Str

/-- The per-commit file loop of `_committed_files_impl`, lines 263-276: one
    `CommittedFileInfo` per entry of the `files` field, numbered by
    `file_count`, with the placeholder commit number `-99`. -/
def gh_commit_cfis (data : GhCommitData) : List CommittedFileInfo :=
  data.files.enum.map (fun p =>
    { commit_nb := -99
      commit_date := some data.date
      summary := some data.message
      commit_file_nb := p.1
      commit_file := p.2
      commit_hash := data.sha
      commit_author := some data.authorName })

/-- GitHub_RepoInspector._committed_files_impl, lines 231-286: if the key
    `(sha, date)` of the current commit is already present in the
    accumulator, return the accumulator unchanged; otherwise record the
    file entries of the commit under that key and recurse into each parent,
    fetching the parent data by URL.  `fetch` stands for `_get_from_url`
    over the commit DAG of the repository; the `fuel` bound makes the recursion
    structural (the Python recursion terminates on a finite DAG for the same
    reason the memo check fires, so any `fuel` at least the number of
    reachable commits plus one per edge is exact). -/
def gh_committed_files_impl (fetch : Str → GhCommitData) :
    Nat → List (GhKey × List CommittedFileInfo) → GhCommitData →
    List (GhKey × List CommittedFileInfo)
  | 0, acc, _ => acc
  | fuel + 1, acc, data =>
    if (acc.map Prod.fst).contains (data.sha, data.date) then acc
    else
      let acc1 := acc ++ [((data.sha, data.date), gh_commit_cfis data)]
      data.parents.foldl (fun a purl => gh_committed_files_impl fetch fuel a (fetch purl)) acc1

/-- The key ordering of GitHub_RepoInspector.committed_files, line 186:
    `sorted(unsorted_keys, key=lambda pair: pair[1], reverse=True)` — a
    stable sort by commit date, most recent date first.  The Python `sorted`
    is stable, and so is `List.insertionSort`, which under this relation
    keeps elements with equal dates in their original relative order. -/
def gh_sorted_keys (keys : List GhKey) : List GhKey :=
  List.insertionSort (fun a b => b.2 ≤ a.2) keys

/-- The ordinal assignment of GitHub_RepoInspector.committed_files, lines
    183-199, factored over the accumulator keys: sort the keys by date
    descending, then hand out commit numbers from `len - 1` (most recent)
    down to `0` (oldest). -/
def gh_key_ordinals (keys : List GhKey) : List (GhKey × Int) :=
  let sorted := gh_sorted_keys keys
  sorted.enum.map (fun p => (p.2, (sorted.length : Int) - 1 - (p.1 : Int)))

/-- GitHub_RepoInspector.committed_files, lines 172-201: run the DAG
    traversal from the tip commit, sort the accumulated keys by date
    descending, overwrite the `commit_nb` of each entry with the ordinal of
    its key,
    and concatenate the per-key entry lists in sorted-key order. -/
def gh_committed_files (fetch : Str → GhCommitData) (fuel : Nat) (tip : GhCommitData) :
    List CommittedFileInfo :=
  let dict := gh_committed_files_impl fetch fuel [] tip
  ((gh_key_ordinals (dict.map Prod.fst)).map (fun p =>
      ((List.lookup p.1 dict).getD []).map (fun cfi => { cfi with commit_nb := p.2 }))).flatten

/-- BranchLifecycleManager.INTEGRATION_BRANCH. -/
def INTEGRATION_BRANCH : Str := strOf "integration"

/-- The clean-tree marker CLEAN_TREE_MSG of
    BranchLifecycleManager.complete_feature, line 189. -/
def CLEAN_TREE_MSG : Str := strOf "nothing to commit, working tree clean"

/-- One repo of the bundle as seen by `complete_feature`: its name and the
    raw output that `git status` produces in its working directory. -/
structure RepoStatus where
  name : Str
  statusText : Str
deriving DecidableEq

/-- The git invocations BranchLifecycleManager issues against bundle repos,
    recorded as a trace.  `status` and `branchMerged` are the read-only
    precondition queries; the rest mutate a repo. -/
inductive GitCall where
  | status (repo : Str)
  | branchMerged (repo destination : Str)
  | checkoutCall (repo branch : Str)
  | pull (repo : Str)
  | merge (repo branch : Str)
  | push (repo : Str)
  | deleteLocal (repo branch : Str)
  | deleteRemote (repo branch : Str)
deriving DecidableEq

/-- Whether a recorded git call mutates a repo (anything beyond the
    read-only `git status` / `git branch --merged` queries). -/
def GitCall.isMutation : GitCall → Bool
  | .status _ => false
  | .branchMerged _ _ => false
  | _ => true

/-- Phase A of BranchLifecycleManager.complete_feature, lines 176-194: walk
    the bundle in order, run `git status` in each repo, continue while the
    output contains the clean-tree message, and raise (`some message`) at
    the first repo with unchecked work.  The returned list is the trace of
    git calls issued. -/
def completeFeaturePhaseA (feature : Str) : List RepoStatus → List GitCall × Option Str
  | [] => ([], none)
  | r :: rest =>
    if pyContains CLEAN_TREE_MSG r.statusText then
      let tail := completeFeaturePhaseA feature rest
      (GitCall.status r.name :: tail.1, tail.2)
    else
      ([GitCall.status r.name],
       some (strOf "Cant merge " ++ r.name ++
             strOf " into integration because there is unchecked work in " ++ feature))

/-- Phase B of BranchLifecycleManager.complete_feature, lines 197-215: per
    repo, checkout integration, pull, merge the feature branch, push. -/
def completeFeaturePhaseB (feature : Str) (repos : List RepoStatus) : List GitCall :=
  repos.flatMap (fun r =>
    [GitCall.checkoutCall r.name INTEGRATION_BRANCH, GitCall.pull r.name,
     GitCall.merge r.name feature, GitCall.push r.name])

/-- BranchLifecycleManager.complete_feature, lines 167-215: run Phase A over
    every repo; only if no repo raised, run Phase B over every repo.  The
    result is the full trace of git calls together with `some message` when
    the operation raised. -/
def complete_feature (repos : List RepoStatus) (feature : Str) : List GitCall × Option Str :=
  match completeFeaturePhaseA feature repos with
  | (trace, some msg) => (trace, some msg)
  | (trace, none) => (trace ++ completeFeaturePhaseB feature repos, none)

/-- RepoAdministration.branches, lines 228-244: split the raw `git branch`
    output on newlines and normalise each line with `b.strip("*").strip()`
    (no filtering of empty lines or symbolic aliases here). -/
def admin_branch_list (raw : Str) : List Str :=
  (pySplit '\n' raw).map stripBranchLine

/-- RepoAdministration.is_branch_merged_to_destination, lines 246-267,
    applied to the raw output of `git branch --merged <destination>`:
    the branch is merged exactly when its name occurs in the normalised
    branch list. -/
def is_branch_merged (branch_name : Str) (mergedRaw : Str) : Bool :=
  (admin_branch_list mergedRaw).contains branch_name

/-- One repo of the bundle as seen by `remove_feature_branch`: its name and
    the raw output of `git branch --merged integration` in it. -/
structure RepoMerged where
  name : Str
  mergedRaw : Str
deriving DecidableEq

/-- Phase A of BranchLifecycleManager.remove_feature_branch, lines 315-325:
    collect the names of every repo in which the feature branch is not yet
    merged into the integration branch (the loop queries every repo before
    deciding), and raise when that list is non-empty. -/
def removeFeatureUnmerged (feature : Str) (repos : List RepoMerged) : List Str :=
  (repos.filter (fun r => !(is_branch_merged feature r.mergedRaw))).map (fun r => r.name)

/-- Phase B of BranchLifecycleManager.remove_feature_branch, lines 328-338:
    per repo, delete the branch locally (`git branch -d`) then remotely
    (`git push origin --delete`). -/
def removeFeaturePhaseB (feature : Str) (repos : List RepoMerged) : List GitCall :=
  repos.flatMap (fun r =>
    [GitCall.deleteLocal r.name feature, GitCall.deleteRemote r.name feature])

/-- BranchLifecycleManager.remove_feature_branch, lines 308-338: query
    `git branch --merged integration` in every repo of the bundle; if any
    repo still has the feature branch unmerged, raise and delete nothing;
    otherwise delete the branch locally and remotely in every repo. -/
def remove_feature_branch (repos : List RepoMerged) (feature : Str) :
    List GitCall × Option Str :=
  let traceA := repos.map (fun r => GitCall.branchMerged r.name INTEGRATION_BRANCH)
  let unmerged := removeFeatureUnmerged feature repos
  if unmerged.length > 0 then
    (traceA,
     some (strOf "Cant remove branch " ++ feature ++
           strOf " because it has not yet been merged with the integration branch in these repos: " ++
           pyJoin (strOf ", ") unmerged))
  else
    (traceA ++ removeFeaturePhaseB feature repos, none)

/-- Field coherence of the accumulator: every recorded entry carries the
    hash and date of the key it is filed under. -/
def GhDictInv (d : List (GhKey × List CommittedFileInfo)) : Prop :=
  ∀ p ∈ d, ∀ cfi ∈ p.2, cfi.commit_hash = p.1.1 ∧ cfi.commit_date = some p.1.2

/-- A concrete diamond-shaped commit history used to exercise the GitHub
    traversal: the shared ancestor `a` is reachable from the merge tip `t`
    through both `b` and `c`; the tip is an empty merge commit with zero
    changed files. -/
def diamondA : GhCommitData :=
  ⟨strOf "a", strOf "2023-06-01T10:00:00Z", strOf "Bob", strOf "first", [strOf "f.py"], []⟩

/-- Left branch of the diamond history; parent link points at `a`. -/
def diamondB : GhCommitData :=
  ⟨strOf "b", strOf "2023-06-02T10:00:00Z", strOf "Bob", strOf "left", [strOf "g.py"],
   [strOf "uA"]⟩

/-- Right branch of the diamond history; parent link points at `a`. -/
def diamondC : GhCommitData :=
  ⟨strOf "c", strOf "2023-06-03T10:00:00Z", strOf "Bob", strOf "right", [strOf "h.py"],
   [strOf "uA"]⟩

/-- Merge tip of the diamond history: zero changed files, two parents. -/
def diamondTip : GhCommitData :=
  ⟨strOf "t", strOf "2023-06-04T10:00:00Z", strOf "Bob", strOf "merge", [],
   [strOf "uB", strOf "uC"]⟩

/-- The parent-URL resolution of the diamond history, standing for
    `_get_from_url`. -/
def diamondFetch (u : Str) : GhCommitData :=
  if u = strOf "uA" then diamondA
  else if u = strOf "uB" then diamondB
  else if u = strOf "uC" then diamondC
  else diamondTip

/-! Helper lemmas about the Python string primitives. -/

theorem pyContains_iff_sublist (sub s : Str) : pyContains sub s = true ↔ sub <:+: s := by
  induction s with
  | nil => simp [pyContains, List.isEmpty_iff, List.infix_nil]
  | cons c rest ih =>
    simp only [pyContains, Bool.or_eq_true, List.isPrefixOf_iff_prefix, ih,
      List.infix_cons_iff]

theorem pyStrip_slice_of_input (p : Char → Bool) (s : Str) : pyStrip p s <:+: s := by
  have h1 : s.dropWhile p <:+ s := List.dropWhile_suffix p
  have h2 : (s.dropWhile p).reverse.dropWhile p <:+ (s.dropWhile p).reverse :=
    List.dropWhile_suffix p
  have h3 : ((s.dropWhile p).reverse.dropWhile p).reverse <+: s.dropWhile p := by
    rw [← List.reverse_suffix]
    simpa using h2
  exact (h3.isInfix).trans h1.isInfix

theorem head?_dropWhile (p : Char → Bool) (l : Str) (x : Char)
    (h : (l.dropWhile p).head? = some x) : p x = false := by
  induction l with
  | nil => simp [List.dropWhile] at h
  | cons c rest ih =>
    rw [List.dropWhile_cons] at h
    by_cases hc : p c = true
    · rw [if_pos hc] at h
      exact ih h
    · rw [if_neg hc] at h
      simp only [List.head?_cons, Option.some_inj] at h
      subst h
      simpa using hc

theorem getLast?_dropWhile_of_ne_nil (p : Char → Bool) (l : Str)
    (h : l.dropWhile p ≠ []) : (l.dropWhile p).getLast? = l.getLast? := by
  induction l with
  | nil => simp [List.dropWhile] at h
  | cons c rest ih =>
    rw [List.dropWhile_cons]
    rw [List.dropWhile_cons] at h
    by_cases hc : p c = true
    · rw [if_pos hc] at h ⊢
      rw [ih h]
      have hrest : rest ≠ [] := by
        intro hr
        apply h
        simp [hr, List.dropWhile]
      cases rest with
      | nil => exact absurd rfl hrest
      | cons d l2 => simp [List.getLast?_cons_cons]
    · rw [if_neg hc]

theorem pyStrip_head?_false (p : Char → Bool) (s : Str) (x : Char)
    (h : (pyStrip p s).head? = some x) : p x = false := by
  unfold pyStrip at h
  rw [List.head?_reverse] at h
  have hne : (s.dropWhile p).reverse.dropWhile p ≠ [] := by
    intro hnil
    rw [hnil] at h
    simp at h
  rw [getLast?_dropWhile_of_ne_nil _ _ hne, List.getLast?_reverse] at h
  exact head?_dropWhile p _ x h

theorem pyStrip_getLast?_false (p : Char → Bool) (s : Str) (x : Char)
    (h : (pyStrip p s).getLast? = some x) : p x = false := by
  unfold pyStrip at h
  rw [List.getLast?_reverse] at h
  exact head?_dropWhile p _ x h

theorem pySplit_ne_nil (sep : Char) (s : Str) : pySplit sep s ≠ [] := by
  cases s with
  | nil => simp [pySplit]
  | cons c rest =>
    rw [pySplit]
    by_cases hc : c = sep
    · simp [hc]
    · rw [if_neg hc]
      cases pySplit sep rest <;> simp

theorem pySplit_sep_free_append (sep : Char) (h t : Str) (hfree : ¬ sep ∈ h) :
    pySplit sep (h ++ sep :: t) = h :: pySplit sep t := by
  induction h with
  | nil => simp [pySplit]
  | cons c h2 ih =>
    have hc : c ≠ sep := by
      intro he
      exact hfree (he ▸ List.mem_cons_self c h2)
    have hfree2 : ¬ sep ∈ h2 := fun hm => hfree (List.mem_cons_of_mem c hm)
    rw [List.cons_append, pySplit, if_neg hc, ih hfree2]

theorem pyJoin_pySplit (sep : Char) (s : Str) : pyJoin [sep] (pySplit sep s) = s := by
  induction s with
  | nil => simp [pySplit, pyJoin]
  | cons c rest ih =>
    rw [pySplit]
    by_cases hc : c = sep
    · rw [if_pos hc]
      obtain ⟨y, ys, hys⟩ : ∃ y ys, pySplit sep rest = y :: ys := by
        cases hr : pySplit sep rest with
        | nil => exact absurd hr (pySplit_ne_nil sep rest)
        | cons y ys => exact ⟨y, ys, rfl⟩
      rw [hys]
      rw [hys] at ih
      subst hc
      simp [pyJoin, ih]
    · rw [if_neg hc]
      obtain ⟨y, ys, hys⟩ : ∃ y ys, pySplit sep rest = y :: ys := by
        cases hr : pySplit sep rest with
        | nil => exact absurd hr (pySplit_ne_nil sep rest)
        | cons y ys => exact ⟨y, ys, rfl⟩
      rw [hys]
      rw [hys] at ih
      cases ys with
      | nil => simp [pyJoin] at ih ⊢; rw [ih]
      | cons z zs =>
        simp only [pyJoin, List.cons_append] at ih ⊢
        rw [List.append_assoc] at ih ⊢
        rw [ih]

/-! Round-trip lemmas for the datetime rendering and parsing model. -/

theorem digVal_digCh (d : Nat) (h : d < 10) : digVal (digCh d) = some d := by
  interval_cases d <;> decide

theorem parse2_fmt2 {n : Nat} (h : n < 100) (rest : Str) :
    parse2 (fmt2 n ++ rest) = some (n, rest) := by
  have e1 : digVal (digCh (n / 10 % 10)) = some (n / 10 % 10) :=
    digVal_digCh _ (Nat.mod_lt _ (by omega))
  have e2 : digVal (digCh (n % 10)) = some (n % 10) :=
    digVal_digCh _ (Nat.mod_lt _ (by omega))
  simp only [fmt2, List.cons_append, List.nil_append, parse2, e1, e2]
  congr 1
  congr 1
  omega

theorem parse4_fmt4 {n : Nat} (h : n < 10000) (rest : Str) :
    parse4 (fmt4 n ++ rest) = some (n, rest) := by
  have e1 : digVal (digCh (n / 1000 % 10)) = some (n / 1000 % 10) :=
    digVal_digCh _ (Nat.mod_lt _ (by omega))
  have e2 : digVal (digCh (n / 100 % 10)) = some (n / 100 % 10) :=
    digVal_digCh _ (Nat.mod_lt _ (by omega))
  have e3 : digVal (digCh (n / 10 % 10)) = some (n / 10 % 10) :=
    digVal_digCh _ (Nat.mod_lt _ (by omega))
  have e4 : digVal (digCh (n % 10)) = some (n % 10) :=
    digVal_digCh _ (Nat.mod_lt _ (by omega))
  simp only [fmt4, List.cons_append, List.nil_append, parse4, e1, e2, e3, e4]
  congr 1
  congr 1
  omega

theorem expectCh_same (c : Char) (rest : Str) : expectCh c (c :: rest) = some rest := by
  simp [expectCh]

theorem parseSep2_render (c : Char) {n : Nat} (h : n < 100) (rest : Str) :
    parseSep2 c (c :: (fmt2 n ++ rest)) = some (n, rest) := by
  rw [parseSep2, expectCh_same, Option.some_bind, parse2_fmt2 h rest]

theorem parseTz_renderTz (tz : Int) (htz : tz.natAbs < 6000) :
    parseTz (' ' :: renderTz tz) = some tz := by
  have hzh : tz.natAbs / 60 < 100 := by omega
  have hzm : tz.natAbs % 60 < 100 := by omega
  have ezm : parse2 (fmt2 (tz.natAbs % 60)) = some (tz.natAbs % 60, []) := by
    simpa using parse2_fmt2 hzm []
  by_cases hsign : (0 : Int) ≤ tz
  · rw [renderTz, if_pos hsign]
    simp only [parseTz, eq_self_iff_true, true_or, if_true, parse2_fmt2 hzh,
      Option.some_bind, ezm, one_mul, Option.some.injEq]
    omega
  · rw [renderTz, if_neg hsign]
    have hplus : ¬ (('-' : Char) = '+') := by decide
    have hplusF : (('-' : Char) = '+') = False := eq_false hplus
    simp only [parseTz, eq_self_iff_true, or_true, if_true, hplusF, if_false,
      parse2_fmt2 hzh, Option.some_bind, ezm, Option.some.injEq]
    omega

theorem parseGitDate_renderGitDate (dt : PyDateTime)
    (hy : dt.year < 10000) (hmo : dt.month < 100) (hd : dt.day < 100)
    (hh : dt.hour < 100) (hmi : dt.minute < 100) (hs : dt.second < 100)
    (htz : dt.tzMinutes.natAbs < 6000) :
    parseGitDate (renderGitDate dt) = some dt := by
  obtain ⟨y, mo, d, h, mi, s, tz⟩ := dt
  simp only at hy hmo hd hh hmi hs htz
  rw [renderGitDate]
  simp only [List.append_assoc, List.cons_append, List.nil_append]
  rw [parseGitDate]
  rw [parse4_fmt4 hy]
  simp only [Option.some_bind]
  rw [parseSep2_render '-' hmo]
  simp only [Option.some_bind]
  rw [parseSep2_render '-' hd]
  simp only [Option.some_bind]
  rw [parseSep2_render ' ' hh]
  simp only [Option.some_bind]
  rw [parseSep2_render ':' hmi]
  simp only [Option.some_bind]
  rw [parseSep2_render ':' hs]
  simp only [Option.some_bind]
  rw [parseTz_renderTz tz htz]
  simp only [Option.map_some']

theorem parseIsoDate_renderIsoDate (dt : PyDateTime)
    (hy : dt.year < 10000) (hmo : dt.month < 100) (hd : dt.day < 100)
    (hh : dt.hour < 100) (hmi : dt.minute < 100) (hs : dt.second < 100) :
    parseIsoDate (renderIsoDate dt) =
      some ⟨dt.year, dt.month, dt.day, dt.hour, dt.minute, dt.second, 0⟩ := by
  obtain ⟨y, mo, d, h, mi, s, tz⟩ := dt
  simp only at hy hmo hd hh hmi hs
  rw [renderIsoDate]
  simp only [List.append_assoc, List.cons_append, List.nil_append]
  rw [parseIsoDate]
  rw [parse4_fmt4 hy]
  simp only [Option.some_bind]
  rw [parseSep2_render '-' hmo]
  simp only [Option.some_bind]
  rw [parseSep2_render '-' hd]
  simp only [Option.some_bind]
  rw [parseSep2_render 'T' hh]
  simp only [Option.some_bind]
  rw [parseSep2_render ':' hmi]
  simp only [Option.some_bind]
  rw [parseSep2_render ':' hs]
  simp only [Option.some_bind]
  have hz : parseIsoTail ['Z'] = some 0 := rfl
  rw [hz]
  simp only [Option.map_some']

/-- Infix containment carries from the stripped branch line back to the raw
    line: `b.strip("*").strip()` is a contiguous slice of `b`. -/
theorem stripBranchLine_slice_of_input (b : Str) : stripBranchLine b <:+: b :=
  (pyStrip_slice_of_input _ _).trans (pyStrip_slice_of_input _ _)

/-- C7: for every repository state, `modified_files()` contains no path that
    `deleted_files()` also reports: the filesystem backend computes modified
    files as the newline-split, empty-line-filtered `git ls-files -m` output
    minus every path reported as an unstaged deletion. -/
theorem fs_modified_files_not_deleted (rawM rawD : Str) (p : Str)
    (hp : p ∈ fs_modified_files rawM rawD) : p ∉ fs_deleted_files rawD := by
  intro hmem
  rw [fs_modified_files, List.mem_filter] at hp
  have hc : (fs_deleted_files rawD).contains p = true := by
    exact List.elem_eq_true_of_mem hmem
  rw [hc] at hp
  simp at hp

/-- Witness for C7 at a concrete repository state. -/
theorem fs_modified_files_not_deleted_witness :
    strOf "a.py" ∈ fs_modified_files (strOf "a.py\nb.py") (strOf "b.py") ∧
    strOf "a.py" ∉ fs_deleted_files (strOf "b.py") :=
  ⟨by decide,
   fs_modified_files_not_deleted (strOf "a.py\nb.py") (strOf "b.py") (strOf "a.py")
     (by decide)⟩

/-- C8: `branches()` yields one normalised entry per raw `git branch` line,
    excluding every line containing the symbolic-alias marker `->`; every
    returned entry is free of `->` and of surrounding whitespace; and the
    raw listing from the source comment produces exactly
    `["ah-dev", "integration", "story_1485"]`. -/
theorem fs_branches_normalized :
    fs_branches (strOf "  ah-dev\n  integration\n* story_1485\n  HEAD -> origin/master") =
      [strOf "ah-dev", strOf "integration", strOf "story_1485"] ∧
    ∀ raw : Str,
      (fs_branches raw).length =
        ((pySplit '\n' raw).filter (fun b => !branchLineHasArrow b)).length ∧
      ∀ b, b ∈ fs_branches raw →
        branchLineHasArrow b = false ∧
        (∀ c, b.head? = some c → isPyWs c = false) ∧
        (∀ c, b.getLast? = some c → isPyWs c = false) := by
  refine ⟨by decide, fun raw => ⟨List.length_map _ _, fun b hb => ?_⟩⟩
  rw [fs_branches, List.mem_map] at hb
  obtain ⟨a, ha, hba⟩ := hb
  rw [List.mem_filter] at ha
  have hnoarrow : branchLineHasArrow a = false := by
    have := ha.2
    simpa using this
  refine ⟨?_, ?_, ?_⟩
  · by_contra hcon
    have harr : branchLineHasArrow b = true := by
      cases hv : branchLineHasArrow b with
      | false => exact absurd hv hcon
      | true => rfl
    have hinf : strOf "->" <:+: b := (pyContains_iff_sublist _ _).mp harr
    have hinf2 : strOf "->" <:+: a := hinf.trans (hba ▸ stripBranchLine_slice_of_input a)
    have : branchLineHasArrow a = true := (pyContains_iff_sublist _ _).mpr hinf2
    rw [this] at hnoarrow
    simp at hnoarrow
  · intro c hc
    rw [← hba] at hc
    exact pyStrip_head?_false _ _ _ hc
  · intro c hc
    rw [← hba] at hc
    exact pyStrip_getLast?_false _ _ _ hc

/-- Witness for C8: the universally quantified normalisation facts applied
    to the concrete listing and its first returned entry. -/
theorem fs_branches_normalized_witness :
    strOf "ah-dev" ∈
      fs_branches (strOf "  ah-dev\n  integration\n* story_1485\n  HEAD -> origin/master") ∧
    branchLineHasArrow (strOf "ah-dev") = false :=
  ⟨by decide,
   ((fs_branches_normalized.2
      (strOf "  ah-dev\n  integration\n* story_1485\n  HEAD -> origin/master")).2
      (strOf "ah-dev") (by decide)).1⟩

/-- C9: `findInspector` returns the filesystem inspector exactly when
    `parent_url + "/" + repo_name` exists locally, with the local-path test
    taking precedence over the URL test; otherwise the GitHub inspector
    exactly when `parent_url` starts with the GitHub base URL; otherwise it
    raises. -/
theorem findInspector_resolution (pathExists : Str → Bool) (parent_url repo_name : Str) :
    (pathExists (parent_url ++ '/' :: repo_name) = true →
      findInspector pathExists parent_url repo_name = Except.ok InspectorKind.filesystem) ∧
    (pathExists (parent_url ++ '/' :: repo_name) = false →
      GIT_HUB_URL.isPrefixOf parent_url = true →
      findInspector pathExists parent_url repo_name = Except.ok InspectorKind.github) ∧
    (pathExists (parent_url ++ '/' :: repo_name) = false →
      GIT_HUB_URL.isPrefixOf parent_url = false →
      ∃ msg, findInspector pathExists parent_url repo_name = Except.error msg) := by
  refine ⟨fun hex => ?_, fun hex hurl => ?_, fun hex hurl => ?_⟩
  · rw [findInspector]
    simp only [hex, if_true]
  · rw [findInspector]
    simp only [hex, hurl, Bool.false_eq_true, if_false, if_true]
  · rw [findInspector]
    simp only [hex, hurl, Bool.false_eq_true, if_false]
    exact ⟨_, rfl⟩

/-- Witness for C9: a location that exists locally resolves to the
    filesystem backend even though its URL also matches the GitHub pattern,
    and a GitHub URL that does not exist locally resolves to the GitHub
    backend. -/
theorem findInspector_resolution_witness :
    findInspector (fun _ => true) (strOf "https://github.com/owner") (strOf "repo1") =
      Except.ok InspectorKind.filesystem ∧
    findInspector (fun _ => false) (strOf "https://github.com/owner") (strOf "repo1") =
      Except.ok InspectorKind.github :=
  ⟨(findInspector_resolution (fun _ => true) (strOf "https://github.com/owner")
      (strOf "repo1")).1 rfl,
   (findInspector_resolution (fun _ => false) (strOf "https://github.com/owner")
      (strOf "repo1")).2.1 rfl (by decide)⟩

/-- C10: a commit message containing the `|` delimiter survives
    `last_commit()` intact: the log line is split on `|`, the hash and the
    timestamp come from the first two fields, and the message is rebuilt by
    rejoining all remaining fields with `|`. -/
theorem fs_last_commit_message_intact (hash date msg : Str) (dt : PyDateTime)
    (hhash : ¬ '|' ∈ hash) (hdate : ¬ '|' ∈ date)
    (hparse : parseGitDate date = some dt) :
    fs_last_commit (hash ++ '|' :: (date ++ '|' :: msg)) =
      some ⟨hash, msg, compactTimestamp dt⟩ := by
  rw [fs_last_commit, pySplit_sep_free_append '|' hash _ hhash,
    pySplit_sep_free_append '|' date _ hdate]
  have hjoin : pyJoin (strOf "|") (pySplit '|' msg) = msg := pyJoin_pySplit '|' msg
  simp only [fs_normalize_ts, hparse, Option.map_some']
  rw [hjoin]

/-- Witness for C10 on the concrete log line
    `a72013|2023-06-14 20:32:57 -0700|Added logic|x|y`. -/
theorem fs_last_commit_message_intact_witness :
    fs_last_commit (strOf "a72013" ++ '|' ::
        (strOf "2023-06-14 20:32:57 -0700" ++ '|' :: strOf "Added logic|x|y")) =
      some ⟨strOf "a72013", strOf "Added logic|x|y",
        compactTimestamp ⟨2023, 6, 14, 20, 32, 57, -420⟩⟩ :=
  fs_last_commit_message_intact (strOf "a72013") (strOf "2023-06-14 20:32:57 -0700")
    (strOf "Added logic|x|y") ⟨2023, 6, 14, 20, 32, 57, -420⟩
    (by decide) (by decide) (by decide)

/-- C6: both backends normalise the commit timestamp to the same canonical
    compact `yyMMdd.HHmmss` representation: the filesystem backend from the
    native `YYYY-MM-DD HH:MM:SS +zzzz` log field, the GitHub backend from
    the ISO date field of the API response, and the two results agree for
    the same underlying commit date fields. -/
theorem last_commit_timestamp_canonical (dt : PyDateTime) (sha message : Str)
    (hy : dt.year < 10000) (hmo : dt.month < 100) (hd : dt.day < 100)
    (hh : dt.hour < 100) (hmi : dt.minute < 100) (hs : dt.second < 100)
    (htz : dt.tzMinutes.natAbs < 6000) :
    fs_normalize_ts (renderGitDate dt) = some (compactTimestamp dt) ∧
    gh_last_commit sha (renderIsoDate dt) message =
      some ⟨sha, message, compactTimestamp dt⟩ ∧
    fs_normalize_ts (renderGitDate dt) = gh_normalize_ts (renderIsoDate dt) := by
  have h1 : fs_normalize_ts (renderGitDate dt) = some (compactTimestamp dt) := by
    rw [fs_normalize_ts, parseGitDate_renderGitDate dt hy hmo hd hh hmi hs htz,
      Option.map_some']
  have hzero :
      compactTimestamp ⟨dt.year, dt.month, dt.day, dt.hour, dt.minute, dt.second, 0⟩ =
        compactTimestamp dt := rfl
  have h2 : gh_normalize_ts (renderIsoDate dt) = some (compactTimestamp dt) := by
    rw [gh_normalize_ts, parseIsoDate_renderIsoDate dt hy hmo hd hh hmi hs,
      Option.map_some', hzero]
  refine ⟨h1, ?_, by rw [h1, h2]⟩
  rw [gh_last_commit]
  simp only [h2]

/-- Witness for C6 at the concrete commit date 2023-06-14 20:32:57 -0700. -/
theorem last_commit_timestamp_canonical_witness :
    fs_normalize_ts (renderGitDate ⟨2023, 6, 14, 20, 32, 57, -420⟩) =
      gh_normalize_ts (renderIsoDate ⟨2023, 6, 14, 20, 32, 57, -420⟩) :=
  (last_commit_timestamp_canonical ⟨2023, 6, 14, 20, 32, 57, -420⟩
    (strOf "a72013") (strOf "msg") (by decide) (by decide) (by decide)
    (by decide) (by decide) (by decide) (by decide)).2.2

/-- Phase A of `complete_feature` raises whenever some repo of the bundle
    has a working tree that is not clean. -/
theorem completeFeaturePhaseA_error (feature : Str) (repos : List RepoStatus)
    (hdirty : ∃ r ∈ repos, pyContains CLEAN_TREE_MSG r.statusText = false) :
    ∃ msg, (completeFeaturePhaseA feature repos).2 = some msg := by
  induction repos with
  | nil => simp at hdirty
  | cons r rest ih =>
    rw [completeFeaturePhaseA]
    by_cases hc : pyContains CLEAN_TREE_MSG r.statusText = true
    · rw [if_pos hc]
      obtain ⟨r2, hr2, hdirty2⟩ := hdirty
      rcases List.mem_cons.mp hr2 with he | hm
      · rw [he] at hdirty2
        rw [hdirty2] at hc
        exact absurd hc (by simp)
      · exact ih ⟨r2, hm, hdirty2⟩
    · rw [if_neg hc]
      exact ⟨_, rfl⟩

/-- Every call Phase A of `complete_feature` issues is a read-only
    `git status` query. -/
theorem completeFeaturePhaseA_no_mutation (feature : Str) (repos : List RepoStatus) :
    ∀ call ∈ (completeFeaturePhaseA feature repos).1, call.isMutation = false := by
  induction repos with
  | nil => simp [completeFeaturePhaseA]
  | cons r rest ih =>
    rw [completeFeaturePhaseA]
    by_cases hc : pyContains CLEAN_TREE_MSG r.statusText = true
    · rw [if_pos hc]
      intro call hcall
      rcases List.mem_cons.mp hcall with he | hm
      · rw [he]; rfl
      · exact ih call hm
    · rw [if_neg hc]
      intro call hcall
      rcases List.mem_cons.mp hcall with he | hm
      · rw [he]; rfl
      · simp at hm

/-- C3: if any repo of the bundle has unchecked work, `complete_feature`
    raises and the recorded git-call trace holds no checkout, pull, merge or
    push against any repo: the mutation loop is only reached after every
    repo passed the clean-working-tree scan. -/
theorem complete_feature_two_phase (repos : List RepoStatus) (feature : Str)
    (hdirty : ∃ r ∈ repos, pyContains CLEAN_TREE_MSG r.statusText = false) :
    (∃ msg, (complete_feature repos feature).2 = some msg) ∧
    ∀ call ∈ (complete_feature repos feature).1, call.isMutation = false := by
  obtain ⟨m, hm⟩ := completeFeaturePhaseA_error feature repos hdirty
  have htr := completeFeaturePhaseA_no_mutation feature repos
  cases hp : completeFeaturePhaseA feature repos with
  | mk t e =>
    rw [hp] at hm htr
    simp only at hm
    rw [complete_feature, hp, hm]
    exact ⟨⟨m, rfl⟩, htr⟩

/-- Witness for C3: a five-repo bundle in which repo 3 has an untracked
    file (its `git status` output lacks the clean-tree message). -/
theorem complete_feature_two_phase_witness :
    (∃ msg,
      (complete_feature
        [⟨strOf "repo1", CLEAN_TREE_MSG⟩, ⟨strOf "repo2", CLEAN_TREE_MSG⟩,
         ⟨strOf "repo3", strOf "Untracked files: new_file.py"⟩,
         ⟨strOf "repo4", CLEAN_TREE_MSG⟩, ⟨strOf "repo5", CLEAN_TREE_MSG⟩]
        (strOf "story_42")).2 = some msg) ∧
    ∀ call ∈ (complete_feature
        [⟨strOf "repo1", CLEAN_TREE_MSG⟩, ⟨strOf "repo2", CLEAN_TREE_MSG⟩,
         ⟨strOf "repo3", strOf "Untracked files: new_file.py"⟩,
         ⟨strOf "repo4", CLEAN_TREE_MSG⟩, ⟨strOf "repo5", CLEAN_TREE_MSG⟩]
        (strOf "story_42")).1, call.isMutation = false :=
  complete_feature_two_phase
    [⟨strOf "repo1", CLEAN_TREE_MSG⟩, ⟨strOf "repo2", CLEAN_TREE_MSG⟩,
     ⟨strOf "repo3", strOf "Untracked files: new_file.py"⟩,
     ⟨strOf "repo4", CLEAN_TREE_MSG⟩, ⟨strOf "repo5", CLEAN_TREE_MSG⟩]
    (strOf "story_42")
    ⟨⟨strOf "repo3", strOf "Untracked files: new_file.py"⟩, by decide, by decide⟩

/-- C4: if in any repo of the bundle the feature branch is not yet merged
    into the integration branch, `remove_feature_branch` raises and the
    recorded git-call trace holds no local or remote branch deletion against
    any repo: Phase A queries every repo before anything is deleted. -/
theorem remove_feature_branch_two_phase (repos : List RepoMerged) (feature : Str)
    (hunmerged : ∃ r ∈ repos, is_branch_merged feature r.mergedRaw = false) :
    (∃ msg, (remove_feature_branch repos feature).2 = some msg) ∧
    ∀ call ∈ (remove_feature_branch repos feature).1, call.isMutation = false := by
  obtain ⟨r, hr, hrb⟩ := hunmerged
  have hmem : r ∈ repos.filter (fun r2 => !(is_branch_merged feature r2.mergedRaw)) := by
    rw [List.mem_filter]
    exact ⟨hr, by rw [hrb]; rfl⟩
  have hlen : (removeFeatureUnmerged feature repos).length > 0 := by
    rw [removeFeatureUnmerged, List.length_map]
    exact List.length_pos.mpr (List.ne_nil_of_mem hmem)
  rw [remove_feature_branch, if_pos hlen]
  refine ⟨⟨_, rfl⟩, fun call hcall => ?_⟩
  obtain ⟨r2, _, hr2⟩ := List.mem_map.mp hcall
  rw [← hr2]
  rfl

/-- Witness for C4: a bundle in which repo 2 still has the feature branch
    unmerged (its `git branch --merged integration` output lists only the
    integration branch itself). -/
theorem remove_feature_branch_two_phase_witness :
    (∃ msg,
      (remove_feature_branch
        [⟨strOf "repo1", strOf "  integration\n* story_42"⟩,
         ⟨strOf "repo2", strOf "  integration"⟩]
        (strOf "story_42")).2 = some msg) ∧
    ∀ call ∈ (remove_feature_branch
        [⟨strOf "repo1", strOf "  integration\n* story_42"⟩,
         ⟨strOf "repo2", strOf "  integration"⟩]
        (strOf "story_42")).1, call.isMutation = false :=
  remove_feature_branch_two_phase
    [⟨strOf "repo1", strOf "  integration\n* story_42"⟩,
     ⟨strOf "repo2", strOf "  integration"⟩]
    (strOf "story_42")
    ⟨⟨strOf "repo2", strOf "  integration"⟩, by decide, by decide⟩

/-- Members of `List.enum` carry an index below the list length. -/
theorem enum_fst_lt {α : Type} (l : List α) (p : Nat × α) (hp : p ∈ l.enum) :
    p.1 < l.length := by
  have hm : p.1 ∈ l.enum.map Prod.fst := List.mem_map_of_mem Prod.fst hp
  rw [List.enum_map_fst] at hm
  exact List.mem_range.mp hm

/-- Sorting the traversal keys by date descending recovers exactly the
    newest-first order of the local log, whenever the two backends saw the
    same commits and the log dates are strictly decreasing. -/
theorem gh_sorted_keys_eq_of_perm (fsCommits ghKeys : List GhKey)
    (hperm : ghKeys.Perm fsCommits)
    (hsorted : fsCommits.Pairwise (fun a b => b.2 < a.2)) :
    gh_sorted_keys ghKeys = fsCommits := by
  haveI htot : IsTotal GhKey (fun a b => b.2 ≤ a.2) := ⟨fun a b => le_total b.2 a.2⟩
  haveI htr : IsTrans GhKey (fun a b => b.2 ≤ a.2) :=
    ⟨fun a b c h1 h2 => le_trans h2 h1⟩
  have hsorted1 : List.Sorted (fun a b : GhKey => b.2 ≤ a.2) (gh_sorted_keys ghKeys) :=
    List.sorted_insertionSort _ _
  have hperm1 : (gh_sorted_keys ghKeys).Perm fsCommits :=
    (List.perm_insertionSort _ _).trans hperm
  have hne : fsCommits.Pairwise (fun a b : GhKey => a.2 ≠ b.2) :=
    hsorted.imp (fun h => (ne_of_lt h).symm)
  have hne1 : (gh_sorted_keys ghKeys).Pairwise (fun a b : GhKey => a.2 ≠ b.2) :=
    (List.Perm.pairwise_iff (fun h => h.symm) hperm1).mpr hne
  have hstrict1 : (gh_sorted_keys ghKeys).Pairwise (fun a b : GhKey => b.2 < a.2) :=
    (hsorted1.and hne1).imp (fun h => lt_of_le_of_ne h.1 (Ne.symm h.2))
  haveI hanti : IsAntisymm GhKey (fun a b : GhKey => b.2 < a.2) :=
    ⟨fun a b h1 h2 => absurd h1 (lt_asymm h2)⟩
  exact List.eq_of_perm_of_sorted hperm1 hstrict1 hsorted

/-- C1: both backends assign the same dense commit ordinals.  `fsCommits`
    is the commit sequence in local-log order (newest first, dates strictly
    decreasing, as `git log` emits them); `ghKeys` are the keys the DAG
    traversal accumulated, in any discovery order, for the same commits.
    Then the GitHub ordinal assignment (sort keys by date descending,
    number from `len - 1` down to `0`) coincides with the filesystem
    assignment (`commit_nb = len - 1 - commit_idx`); the ordinals are
    exactly `0 .. N - 1` increasing with recency; and the chronologically
    oldest commit receives ordinal `0`. -/
theorem committed_files_ordinals_equivalent (fsCommits ghKeys : List GhKey)
    (hperm : ghKeys.Perm fsCommits)
    (hsorted : fsCommits.Pairwise (fun a b => b.2 < a.2)) :
    gh_key_ordinals ghKeys =
      (descOrdinals fsCommits).map (fun p => (p.1, (p.2 : Int))) ∧
    (descOrdinals fsCommits).map Prod.snd = (List.range fsCommits.length).reverse ∧
    (∀ oldest, fsCommits.getLast? = some oldest → (oldest, 0) ∈ descOrdinals fsCommits) := by
  have hsk := gh_sorted_keys_eq_of_perm fsCommits ghKeys hperm hsorted
  refine ⟨?_, ?_, ?_⟩
  · rw [gh_key_ordinals]
    simp only [hsk]
    rw [descOrdinals, List.map_map]
    apply List.map_congr_left
    intro p hp
    have hlt := enum_fst_lt _ p hp
    simp only [Function.comp_apply]
    congr 1
    omega
  · rw [descOrdinals, List.map_map]
    have hfun : (Prod.snd ∘ fun p : Nat × GhKey => (p.2, fsCommits.length - 1 - p.1)) =
        (fun i => fsCommits.length - 1 - i) ∘ Prod.fst := rfl
    rw [hfun, ← List.map_map, List.enum_map_fst, List.range_eq_range',
      List.reverse_range', ← List.range_eq_range']
    simp
  · intro oldest hlast
    have hne : fsCommits ≠ [] := by
      intro h
      rw [h] at hlast
      simp at hlast
    have hgl : fsCommits.getLast hne = oldest := by
      rw [List.getLast?_eq_getLast fsCommits hne] at hlast
      exact Option.some_inj.mp hlast
    have hlenpos : 0 < fsCommits.length := List.length_pos.mpr hne
    have hlen : fsCommits.length - 1 < fsCommits.length := by omega
    have hlen2 : fsCommits.length - 1 < fsCommits.enum.length := by
      rw [List.enum_length]
      exact hlen
    have h1 : fsCommits.enum.get ⟨fsCommits.length - 1, hlen2⟩ =
        (fsCommits.length - 1, oldest) := by
      simp only [List.get_eq_getElem, List.getElem_enum]
      rw [← hgl, List.getLast_eq_get fsCommits hne]
      simp [List.get_eq_getElem]
    have henum : (fsCommits.length - 1, oldest) ∈ fsCommits.enum := by
      rw [← h1]
      exact List.get_mem _ _ _
    rw [descOrdinals]
    refine List.mem_map.mpr ⟨(fsCommits.length - 1, oldest), henum, ?_⟩
    simp

/-- Witness for C1 on a concrete two-commit history: the local log lists
    the newer commit first, the DAG traversal discovered the commits in the
    opposite order. -/
theorem committed_files_ordinals_equivalent_witness :
    gh_key_ordinals
        [(strOf "a", strOf "2023-06-01T10:00:00Z"), (strOf "b", strOf "2023-06-02T10:00:00Z")] =
      (descOrdinals
        [(strOf "b", strOf "2023-06-02T10:00:00Z"), (strOf "a", strOf "2023-06-01T10:00:00Z")]).map
        (fun p => (p.1, (p.2 : Int))) :=
  (committed_files_ordinals_equivalent
    [(strOf "b", strOf "2023-06-02T10:00:00Z"), (strOf "a", strOf "2023-06-01T10:00:00Z")]
    [(strOf "a", strOf "2023-06-01T10:00:00Z"), (strOf "b", strOf "2023-06-02T10:00:00Z")]
    (by decide) (by decide)).1

/-- The memoization equation of `_committed_files_impl`: a commit whose
    `(hash, date)` key is already recorded is returned unchanged — it is not
    processed again and its parents are not re-traversed. -/
theorem gh_impl_memo (fetch : Str → GhCommitData) (fuel : Nat)
    (acc : List (GhKey × List CommittedFileInfo)) (data : GhCommitData)
    (h : (acc.map Prod.fst).contains (data.sha, data.date) = true) :
    gh_committed_files_impl fetch (fuel + 1) acc data = acc := by
  rw [gh_committed_files_impl, if_pos h]

/-- Any accumulator property preserved by one traversal step is preserved
    by the fold over a parent list. -/
theorem gh_impl_foldl_pres (P : List (GhKey × List CommittedFileInfo) → Prop)
    (fetch : Str → GhCommitData) (n : Nat)
    (step : ∀ (data : GhCommitData) (acc : List (GhKey × List CommittedFileInfo)),
      P acc → P (gh_committed_files_impl fetch n acc data)) :
    ∀ (ps : List Str) (acc : List (GhKey × List CommittedFileInfo)), P acc →
      P (ps.foldl (fun a purl => gh_committed_files_impl fetch n a (fetch purl)) acc) := by
  intro ps
  induction ps with
  | nil => intro acc h; simpa using h
  | cons p ps2 ihp =>
    intro acc h
    rw [List.foldl_cons]
    exact ihp _ (step (fetch p) acc h)

/-- The traversal keeps the accumulator keys free of duplicates: every
    commit key is recorded at most once. -/
theorem gh_impl_keys_nodup (fetch : Str → GhCommitData) :
    ∀ (fuel : Nat) (data : GhCommitData) (acc : List (GhKey × List CommittedFileInfo)),
      (acc.map Prod.fst).Nodup →
      ((gh_committed_files_impl fetch fuel acc data).map Prod.fst).Nodup := by
  intro fuel
  induction fuel with
  | zero =>
    intro data acc h
    rw [gh_committed_files_impl]
    exact h
  | succ n ih =>
    intro data acc h
    rw [gh_committed_files_impl]
    by_cases hc : (acc.map Prod.fst).contains (data.sha, data.date) = true
    · rw [if_pos hc]
      exact h
    · rw [if_neg hc]
      have hnotmem : (data.sha, data.date) ∉ acc.map Prod.fst := fun hm =>
        hc (List.elem_eq_true_of_mem hm)
      have h1 : ((acc ++ [((data.sha, data.date), gh_commit_cfis data)]).map
          Prod.fst).Nodup := by
        rw [List.map_append]
        refine List.Nodup.append h (by simp) ?_
        intro a ha hb
        simp only [List.map_cons, List.map_nil, List.mem_singleton] at hb
        rw [hb] at ha
        exact hnotmem ha
      exact gh_impl_foldl_pres (fun d => (d.map Prod.fst).Nodup) fetch n
        (fun d a ha => ih d a ha) data.parents _ h1

/-- The traversal preserves field coherence of the accumulator. -/
theorem gh_impl_inv (fetch : Str → GhCommitData) :
    ∀ (fuel : Nat) (data : GhCommitData) (acc : List (GhKey × List CommittedFileInfo)),
      GhDictInv acc → GhDictInv (gh_committed_files_impl fetch fuel acc data) := by
  intro fuel
  induction fuel with
  | zero =>
    intro data acc h
    rw [gh_committed_files_impl]
    exact h
  | succ n ih =>
    intro data acc h
    rw [gh_committed_files_impl]
    by_cases hc : (acc.map Prod.fst).contains (data.sha, data.date) = true
    · rw [if_pos hc]
      exact h
    · rw [if_neg hc]
      have h1 : GhDictInv (acc ++ [((data.sha, data.date), gh_commit_cfis data)]) := by
        intro p hp cfi hcfi
        rcases List.mem_append.mp hp with hin | hnew
        · exact h p hin cfi hcfi
        · rw [List.mem_singleton] at hnew
          rw [hnew] at hcfi
          simp only at hcfi
          obtain ⟨q, _, hq⟩ := List.mem_map.mp hcfi
          rw [hnew, ← hq]
          exact ⟨rfl, rfl⟩
      exact gh_impl_foldl_pres GhDictInv fetch n (fun d a ha => ih d a ha)
        data.parents _ h1

/-- A successful association-list lookup exhibits a member of the list. -/
theorem mem_of_lookup_eq_some {k : GhKey} {v : List CommittedFileInfo}
    {l : List (GhKey × List CommittedFileInfo)}
    (h : List.lookup k l = some v) : (k, v) ∈ l := by
  obtain ⟨l1, l2, hl, _⟩ := List.lookup_eq_some_iff.mp h
  rw [hl]
  exact List.mem_append.mpr (Or.inr (List.mem_cons_self _ _))

/-- A commit recorded with an empty file list contributes no row at all to
    the `committed_files()` output of the GitHub backend. -/
theorem gh_empty_commit_no_entries (fetch : Str → GhCommitData) (fuel : Nat)
    (tip : GhCommitData) (sha0 date0 : Str)
    (hlook : List.lookup (sha0, date0) (gh_committed_files_impl fetch fuel [] tip) =
      some []) :
    ∀ e ∈ gh_committed_files fetch fuel tip,
      ¬ (e.commit_hash = sha0 ∧ e.commit_date = some date0) := by
  intro e he hcon
  obtain ⟨hh, hd⟩ := hcon
  simp only [gh_committed_files] at he
  obtain ⟨l, hl, hel⟩ := List.mem_flatten.mp he
  obtain ⟨p, hp, hpl⟩ := List.mem_map.mp hl
  rw [← hpl] at hel
  obtain ⟨cfi, hcfi, hecfi⟩ := List.mem_map.mp hel
  cases hl2 : List.lookup p.1 (gh_committed_files_impl fetch fuel [] tip) with
  | none =>
    rw [hl2] at hcfi
    simp at hcfi
  | some lst =>
    rw [hl2] at hcfi
    simp only [Option.getD_some] at hcfi
    have hmem : (p.1, lst) ∈ gh_committed_files_impl fetch fuel [] tip :=
      mem_of_lookup_eq_some hl2
    have hinv : GhDictInv (gh_committed_files_impl fetch fuel [] tip) :=
      gh_impl_inv fetch fuel tip [] (by intro q hq; simp at hq)
    have hf := hinv (p.1, lst) hmem cfi hcfi
    have hhash : e.commit_hash = cfi.commit_hash := by rw [← hecfi]
    have hdate : e.commit_date = cfi.commit_date := by rw [← hecfi]
    have hkey : p.1 = (sha0, date0) := by
      have e1 : p.1.1 = sha0 := by rw [← hf.1, ← hhash, hh]
      have e2 : some p.1.2 = some date0 := by rw [← hf.2, ← hdate, hd]
      have e2b : p.1.2 = date0 := Option.some_inj.mp e2
      exact Prod.ext e1 e2b
    rw [hkey] at hl2
    rw [hl2] at hlook
    have : lst = [] := Option.some_inj.mp hlook
    rw [this] at hcfi
    simp at hcfi

/-- A commit block whose file phase has no lines left (`OFFSET >= MAX_LINES`)
    yields exactly one entry, with an empty file path, from the filesystem
    parser. -/
theorem fs_parse_commit_block_empty (nb : Nat) (commit : Str)
    (hoff : (advanceToCommittedFiles (pySplit '\n' commit) (pySplit '\n' commit).length
        (advanceToSummary (pySplit '\n' commit) (pySplit '\n' commit).length
          0 none none).1 none).1 + 1 ≥
      (pySplit '\n' commit).length) :
    ∃ e, fs_parse_commit_block nb commit = [e] ∧ e.commit_file = [] ∧
      e.commit_nb = (nb : Int) ∧ e.commit_file_nb = 0 := by
  have h0 : (pySplit '\n' commit).length -
      ((advanceToCommittedFiles (pySplit '\n' commit) (pySplit '\n' commit).length
        (advanceToSummary (pySplit '\n' commit) (pySplit '\n' commit).length
          0 none none).1 none).1 + 1) = 0 := by
    omega
  simp only [fs_parse_commit_block]
  rw [h0, if_pos hoff]
  simp only [List.range'_zero, List.filterMap_nil, List.nil_append]
  exact ⟨_, rfl, rfl, rfl, rfl⟩

/-- C2 counterexample: in the concrete diamond history the empty merge
    commit `t` is recorded by the traversal (first conjunct), yet the
    `committed_files()` output of the GitHub backend holds zero entries for it,
    not one entry with an empty file path as the claim states for both
    backends. -/
theorem committed_files_empty_commit_cex :
    ((gh_committed_files_impl diamondFetch 10 [] diamondTip).map Prod.fst).contains
        (strOf "t", strOf "2023-06-04T10:00:00Z") = true ∧
    ((gh_committed_files diamondFetch 10 diamondTip).filter
        (fun e => e.commit_hash == strOf "t")).length = 0 :=
  ⟨by decide, by decide⟩

/-- C2 (amended): a commit with zero changed files yields exactly one entry
    with an empty file path from the filesystem backend, but the GitHub
    backend yields no entry at all for such a commit — the commit is
    present in the traversal accumulator (and consumes an ordinal) yet is
    absent from the returned log. -/
theorem committed_files_empty_commit :
    (∀ (nb : Nat) (commit : Str),
        (advanceToCommittedFiles (pySplit '\n' commit) (pySplit '\n' commit).length
            (advanceToSummary (pySplit '\n' commit) (pySplit '\n' commit).length
              0 none none).1 none).1 + 1 ≥
          (pySplit '\n' commit).length →
        ∃ e, fs_parse_commit_block nb commit = [e] ∧ e.commit_file = [] ∧
          e.commit_nb = (nb : Int) ∧ e.commit_file_nb = 0) ∧
    (∀ (fetch : Str → GhCommitData) (fuel : Nat) (tip : GhCommitData) (sha0 date0 : Str),
        List.lookup (sha0, date0) (gh_committed_files_impl fetch fuel [] tip) = some [] →
        ∀ e ∈ gh_committed_files fetch fuel tip,
          ¬ (e.commit_hash = sha0 ∧ e.commit_date = some date0)) :=
  ⟨fs_parse_commit_block_empty, gh_empty_commit_no_entries⟩

/-- Witness for C2 (amended): the filesystem parser on a concrete merge
    block with no file lines, and the GitHub backend on the concrete
    diamond history, where the entry for commit `c` is in the output and is
    not an entry for the dropped empty merge `t`. -/
theorem committed_files_empty_commit_witness :
    (∃ e, fs_parse_commit_block 1
        (strOf "e7f556f\nMerge: e9fc7d3 5019add\nAuthor: Alice\nDate:   Sat Jun 3 21:22:05 2023 -0700\n\n    Merge pull request\n") =
        [e] ∧ e.commit_file = [] ∧ e.commit_nb = (1 : Int) ∧ e.commit_file_nb = 0) ∧
    ¬ ((⟨2, some (strOf "2023-06-03T10:00:00Z"), some (strOf "right"), 0, strOf "h.py",
          strOf "c", some (strOf "Bob")⟩ : CommittedFileInfo).commit_hash = strOf "t" ∧
       (⟨2, some (strOf "2023-06-03T10:00:00Z"), some (strOf "right"), 0, strOf "h.py",
          strOf "c", some (strOf "Bob")⟩ : CommittedFileInfo).commit_date =
         some (strOf "2023-06-04T10:00:00Z")) :=
  ⟨committed_files_empty_commit.1 1
    (strOf "e7f556f\nMerge: e9fc7d3 5019add\nAuthor: Alice\nDate:   Sat Jun 3 21:22:05 2023 -0700\n\n    Merge pull request\n")
    (by decide),
   committed_files_empty_commit.2 diamondFetch 10 diamondTip (strOf "t")
    (strOf "2023-06-04T10:00:00Z") (by decide)
    ⟨2, some (strOf "2023-06-03T10:00:00Z"), some (strOf "right"), 0, strOf "h.py",
      strOf "c", some (strOf "Bob")⟩ (by decide)⟩

/-- C5: the remote traversal visits and records each commit exactly once.
    A commit whose `(hash, date)` key is already in the accumulator is not
    processed again and its parents are not re-traversed (first conjunct);
    the accumulator keys stay duplicate-free through any traversal (second
    conjunct); and on the concrete diamond history — the shared ancestor
    `a` reachable from the tip along two merge paths — the output holds the
    file entries of the ancestor exactly once (third conjunct). -/
theorem gh_traversal_visits_once :
    (∀ (fetch : Str → GhCommitData) (fuel : Nat)
        (acc : List (GhKey × List CommittedFileInfo)) (data : GhCommitData),
        (acc.map Prod.fst).contains (data.sha, data.date) = true →
        gh_committed_files_impl fetch (fuel + 1) acc data = acc) ∧
    (∀ (fetch : Str → GhCommitData) (fuel : Nat) (data : GhCommitData)
        (acc : List (GhKey × List CommittedFileInfo)),
        (acc.map Prod.fst).Nodup →
        ((gh_committed_files_impl fetch fuel acc data).map Prod.fst).Nodup) ∧
    ((gh_committed_files diamondFetch 10 diamondTip).filter
        (fun e => e.commit_hash == strOf "a")).length = 1 :=
  ⟨gh_impl_memo, gh_impl_keys_nodup, by decide⟩

/-- Witness for C5: the memoization equation and the duplicate-freedom
    property applied at concrete accumulators of the diamond history. -/
theorem gh_traversal_visits_once_witness :
    gh_committed_files_impl diamondFetch 1
        [((strOf "a", strOf "2023-06-01T10:00:00Z"), [])] diamondA =
      [((strOf "a", strOf "2023-06-01T10:00:00Z"), [])] ∧
    ((gh_committed_files_impl diamondFetch 10 [] diamondTip).map Prod.fst).Nodup :=
  ⟨gh_traversal_visits_once.1 diamondFetch 0
    [((strOf "a", strOf "2023-06-01T10:00:00Z"), [])] diamondA (by decide),
   gh_traversal_visits_once.2.1 diamondFetch 10 diamondTip [] (by decide)⟩
